import Mathlib

/-!
A verification development for the colorclass repository: a console
text-coloring library (tag parsing, escape translation, mode toggles, a
length-correct string wrapper) plus a screenshot pixel-matching test helper.

Strings are modelled as lists of characters (`Str`).  The core library
modules are not present in the source tree (only their import declarations
and the test helper are), so the core is modelled from the specification,
as marked in the doc comments.  The screenshot helper functions
(`iter_rows`, `get_most_interesting_row`, `count_subimages`) are embedded
directly from `tests/screenshot.py`.
-/

abbrev Str := List Char

deriving instance DecidableEq for Except

/-! ## Code Registry -/

/-- Modelled from the spec: the kind of a terminal attribute code. -/
inductive ColorKind where
  | foreground
  | background
  | style
deriving DecidableEq

/-- Modelled from the spec: immutable record
`{name: string, value: integer, kind: enum}` of the Code Registry. -/
structure ColorCode where
  name : Str
  value : Nat
  kind : ColorKind
deriving DecidableEq

/-- Modelled from the spec: `register(name, value, kind)` adds or overwrites
a tag mapping; the most recent registration wins on lookup. -/
def register (reg : List ColorCode) (c : ColorCode) : List ColorCode :=
  c :: reg

/-- Modelled from the spec: `lookup(name)`, a case-sensitive exact match
returning the most recently registered entry for the name. -/
def lookup (reg : List ColorCode) (n : Str) : Option ColorCode :=
  reg.find? (fun c => decide (c.name = n))

/-- Modelled from the spec: `list_tags()` returns the `(name, value)` pairs
in registration order with built-ins first. -/
def list_tags (reg : List ColorCode) : List (Str × Nat) :=
  reg.reverse.map (fun c => (c.name, c.value))

/-- Modelled from the spec: the built-in table registered at process start.
The spec names the tags "red" (value 31, cited in its worked example),
"bg_blue" and "b" (bold); the exact full table is unspecified. -/
def builtinCodes : List ColorCode :=
  [⟨("red".data), 31, ColorKind.foreground⟩,
   ⟨("bg_blue".data), 44, ColorKind.background⟩,
   ⟨("b".data), 1, ColorKind.style⟩]

/-! ## Mode/Toggle State -/

/-- Modelled from the spec: `enabled ∈ {auto, forced_on, forced_off}`. -/
inductive Enabled where
  | auto
  | forced_on
  | forced_off
deriving DecidableEq

/-- Modelled from the spec: `background ∈ {none, light, dark}`. -/
inductive BgMode where
  | none
  | light
  | dark
deriving DecidableEq

/-- Modelled from the spec: the process-wide Mode/Toggle state. -/
structure ModeState where
  enabled : Enabled
  background : BgMode
deriving DecidableEq

/-- Modelled from the spec: initial state `enabled=auto, background=none`. -/
def initialMode : ModeState := ⟨Enabled.auto, BgMode.none⟩

/-- Modelled from the spec: `disable_all_colors()` moves `enabled` to
`forced_off`.  A pure state replacement; it never fails. -/
def disable_all_colors (st : ModeState) : ModeState :=
  { st with enabled := Enabled.forced_off }

/-- Modelled from the spec: `set_light_background()` moves `background` to
`light`.  A pure state replacement; it never fails. -/
def set_light_background (st : ModeState) : ModeState :=
  { st with background := BgMode.light }

/-- Modelled from the spec: `set_dark_background()` moves `background` to
`dark`.  A pure state replacement; it never fails. -/
def set_dark_background (st : ModeState) : ModeState :=
  { st with background := BgMode.dark }

/-- Modelled from the spec: the enable/reset call returns the state to
`enabled=auto, background=none`. -/
def enable_all_colors (_ : ModeState) : ModeState := initialMode

/-- Modelled from the spec: whether colors are emitted, given the mode and
the externally injected "is a capable terminal" boolean. -/
def colorsEnabled (st : ModeState) (tty : Bool) : Bool :=
  match st.enabled with
  | Enabled.forced_on => true
  | Enabled.forced_off => false
  | Enabled.auto => tty

/-! ## Tag Parser -/

/-- Modelled from the spec: tag tokens
`{kind: enum{open, close, literal}, name, text}`. -/
inductive Token where
  | tagOpen (name : Str)
  | tagClose (name : Str)
  | lit (c : Char)
deriving DecidableEq

/-- Modelled from the spec: `MalformedTagError` carries the offending
input position. -/
structure MalformedTagError where
  pos : Nat
deriving DecidableEq

/-- Parser scanning state: plain text, or inside a `\x7b...\x7d` marker
(reading a tag name, with the marker's start position and the name
characters read so far, reversed). -/
inductive PState where
  | text
  | tagName (isClose : Bool) (startPos : Nat) (acc : Str)
deriving DecidableEq

/-- Modelled from the spec: the tag parser worker.  Marker syntax: `\x7bname\x7d`
opens, `\x7b/name\x7d` closes (close must name the tag), doubled marker
characters are unescaped to one literal character.  Open/close must nest:
a close without a matching open, an unterminated open at end of string, an
unterminated marker, an empty name or a stray close marker character fail
with `MalformedTagError` at the offending position.  Purely syntactic: it
never consults the registry or the mode. -/
def parseGo : PState → Str → Nat → List (Str × Nat) → Except MalformedTagError (List Token)
  | PState.text, [], _, stack =>
    match stack with
    | [] => Except.ok []
    | (_, p) :: _ => Except.error ⟨p⟩
  | PState.text, c :: rest, pos, stack =>
    if c = '{' then
      match rest with
      | [] => Except.error ⟨pos⟩
      | d :: rest' =>
        if d = '{' then
          (fun ts => Token.lit '{' :: ts) <$> parseGo PState.text rest' (pos + 2) stack
        else if d = '/' then
          parseGo (PState.tagName true pos []) rest' (pos + 2) stack
        else if d = '}' then
          Except.error ⟨pos⟩
        else
          parseGo (PState.tagName false pos [d]) rest' (pos + 2) stack
    else if c = '}' then
      match rest with
      | [] => Except.error ⟨pos⟩
      | d :: rest' =>
        if d = '}' then
          (fun ts => Token.lit '}' :: ts) <$> parseGo PState.text rest' (pos + 2) stack
        else
          Except.error ⟨pos⟩
    else
      (fun ts => Token.lit c :: ts) <$> parseGo PState.text rest (pos + 1) stack
  | PState.tagName _ sp _, [], _, _ => Except.error ⟨sp⟩
  | PState.tagName isClose sp acc, c :: rest, pos, stack =>
    if c = '}' then
      if acc = [] then Except.error ⟨sp⟩
      else
        if isClose then
          match stack with
          | [] => Except.error ⟨sp⟩
          | (top, _) :: stack' =>
            if top = acc.reverse then
              (fun ts => Token.tagClose acc.reverse :: ts) <$>
                parseGo PState.text rest (pos + 1) stack'
            else Except.error ⟨sp⟩
        else
          (fun ts => Token.tagOpen acc.reverse :: ts) <$>
            parseGo PState.text rest (pos + 1) ((acc.reverse, sp) :: stack)
    else if c = '{' then Except.error ⟨sp⟩
    else parseGo (PState.tagName isClose sp (c :: acc)) rest (pos + 1) stack

/-- Modelled from the spec: the Tag Parser, a pure function of the input
string producing the token sequence or a `MalformedTagError`. -/
def parse (s : Str) : Except MalformedTagError (List Token) :=
  parseGo PState.text s 0 []

/-! ## Escape Translator -/

/-- Modelled from the spec: `UnknownTagError` carries the unresolvable
tag name. -/
structure UnknownTagError where
  name : Str
deriving DecidableEq

/-- An error raised by a render call: parse-time or translate-time. -/
inductive RenderError where
  | malformedTag (e : MalformedTagError)
  | unknownTag (e : UnknownTagError)
deriving DecidableEq

/-- Decimal digit character for a value below ten. -/
def digitChar (n : Nat) : Char := Char.ofNat (48 + n)

/-- Decimal digits of a natural number (worker, fuel-driven). -/
def natCharsGo : Nat → Nat → Str → Str
  | 0, _, acc => acc
  | f + 1, n, acc =>
    if n < 10 then digitChar n :: acc
    else natCharsGo f (n / 10) (digitChar (n % 10) :: acc)

/-- Decimal digits of a natural number. -/
def natChars (n : Nat) : Str := natCharsGo (n + 1) n []

/-- Parameter body of a CSI sequence: decimal codes separated by `;`. -/
def paramBody : List Nat → Str
  | [] => []
  | [p] => natChars p
  | p :: ps => natChars p ++ ';' :: paramBody ps

/-- Modelled from the spec: a standard ANSI CSI SGR escape sequence
`ESC [ params m`. -/
def csiChars (ps : List Nat) : Str :=
  '\x1b' :: '[' :: (paramBody ps ++ ['m'])

/-- Modelled from the spec: the table-driven background remap, keyed by
(tag name, background setting), mapping designated ambiguous tags to
concrete codes.  The spec specifies no concrete entries, so the built-in
table is empty. -/
def bgRemapTable : List (Str × BgMode × Nat) := []

/-- Modelled from the spec: resolve a tag name to an attribute code,
applying the background remap table before falling back to the registry. -/
def resolveCode (reg : List ColorCode) (bg : BgMode) (n : Str) : Option Nat :=
  match bgRemapTable.find? (fun e => decide (e.1 = n) && decide (e.2.1 = bg)) with
  | some e => some e.2.2
  | none => (lookup reg n).map (fun c => c.value)

/-- Modelled from the spec: the Escape Translator worker over the token
stream, maintaining the attribute stack.  Every open/close tag is resolved
through the registry (unknown names fail with `UnknownTagError`, no partial
output).  When colors are off nothing is emitted for tag spans and literal
text passes through.  When on, an open pushes its code and emits the
corresponding escape; a close pops and emits the reset sequence followed by
the re-emitted combined escape of the remaining stack (not just a blanket
reset), so outer styling is restored. -/
def translateGo (reg : List ColorCode) (bg : BgMode) (isOn : Bool) :
    List Token → List Nat → Except UnknownTagError Str
  | [], _ => Except.ok []
  | Token.lit c :: rest, stack =>
    (fun t => c :: t) <$> translateGo reg bg isOn rest stack
  | Token.tagOpen n :: rest, stack =>
    match resolveCode reg bg n with
    | none => Except.error ⟨n⟩
    | some v =>
      (fun t => (if isOn then csiChars [v] else []) ++ t) <$>
        translateGo reg bg isOn rest (v :: stack)
  | Token.tagClose n :: rest, stack =>
    match resolveCode reg bg n with
    | none => Except.error ⟨n⟩
    | some _ =>
      (fun t =>
        (if isOn then csiChars [0] ++
            (if stack.tail = [] then [] else csiChars stack.tail.reverse)
          else []) ++ t) <$>
        translateGo reg bg isOn rest stack.tail

/-- Modelled from the spec: render a tagged string under a mode snapshot,
the injected terminal-capability boolean and a registry: parse, then
translate.  Errors are fatal to the call; no partial output. -/
def render (s : Str) (st : ModeState) (tty : Bool) (reg : List ColorCode) :
    Except RenderError Str :=
  match parse s with
  | Except.error e => Except.error (RenderError.malformedTag e)
  | Except.ok ts =>
    match translateGo reg st.background (colorsEnabled st tty) ts [] with
    | Except.error e => Except.error (RenderError.unknownTag e)
    | Except.ok out => Except.ok out

/-- The literal text of a token stream: the tag markers removed. -/
def literalText : List Token → Str
  | [] => []
  | Token.lit c :: rest => c :: literalText rest
  | Token.tagOpen _ :: rest => literalText rest
  | Token.tagClose _ :: rest => literalText rest

/-- Whether every open/close tag of a token stream resolves through the
given registry and background setting. -/
def allResolvable (reg : List ColorCode) (bg : BgMode) : List Token → Bool
  | [] => true
  | Token.lit _ :: rest => allResolvable reg bg rest
  | Token.tagOpen n :: rest =>
    (resolveCode reg bg n).isSome && allResolvable reg bg rest
  | Token.tagClose n :: rest =>
    (resolveCode reg bg n).isSome && allResolvable reg bg rest

/-- Nesting well-formedness of a token stream, checked with an explicit
stack of open tag names. -/
def nestOk : List Token → List Str → Bool
  | [], stack => decide (stack = [])
  | Token.lit _ :: rest, stack => nestOk rest stack
  | Token.tagOpen n :: rest, stack => nestOk rest (n :: stack)
  | Token.tagClose n :: rest, stack =>
    match stack with
    | [] => false
    | m :: stack' => decide (m = n) && nestOk rest stack'

/-- A token stream is balanced when every close matches its open and no
open is left unclosed. -/
def balanced (ts : List Token) : Bool := nestOk ts []

/-! ## Length-Correct String Wrapper -/

/-- Modelled from the spec: a classified byte run of a rendered string:
literal character or escape sequence (with its SGR parameters). -/
inductive Run where
  | lit (c : Char)
  | esc (params : List Nat)
deriving DecidableEq

/-- Numeric value of a decimal digit character. -/
def digitVal (c : Char) : Nat := c.toNat - 48

/-- Worker parsing the `;`-separated decimal codes of a CSI body. -/
def parseParamsGo : Str → Nat → List Nat → List Nat
  | [], cur, acc => (cur :: acc).reverse
  | c :: rest, cur, acc =>
    if c = ';' then parseParamsGo rest 0 (cur :: acc)
    else parseParamsGo rest (cur * 10 + digitVal c) acc

/-- Parse the parameter body of a CSI sequence into numeric codes; an empty
body reads as the single code `0`, as terminals do. -/
def parseParams (cs : Str) : List Nat := parseParamsGo cs 0 []

/-- Scanner state for classifying a rendered string into runs. -/
inductive SState where
  | norm
  | sawEsc
  | inEsc (raw : Str)
deriving DecidableEq

/-- Modelled from the spec: the single linear pass classifying each byte
run of a rendered string as literal or escape (`ESC [ params m`).  Bytes
that do not complete a well-formed escape sequence are classified as
literal. -/
def scanGo : SState → Str → List Run
  | SState.norm, [] => []
  | SState.norm, c :: rest =>
    if c = '\x1b' then scanGo SState.sawEsc rest
    else Run.lit c :: scanGo SState.norm rest
  | SState.sawEsc, [] => [Run.lit '\x1b']
  | SState.sawEsc, c :: rest =>
    if c = '[' then scanGo (SState.inEsc []) rest
    else if c = '\x1b' then Run.lit '\x1b' :: scanGo SState.sawEsc rest
    else Run.lit '\x1b' :: Run.lit c :: scanGo SState.norm rest
  | SState.inEsc raw, [] => Run.lit '\x1b' :: Run.lit '[' :: raw.reverse.map Run.lit
  | SState.inEsc raw, c :: rest =>
    if c = 'm' then Run.esc (parseParams raw.reverse) :: scanGo SState.norm rest
    else if c.isDigit ∨ c = ';' then scanGo (SState.inEsc (c :: raw)) rest
    else if c = '\x1b' then
      Run.lit '\x1b' :: Run.lit '[' :: raw.reverse.map Run.lit ++ scanGo SState.sawEsc rest
    else
      Run.lit '\x1b' :: Run.lit '[' :: raw.reverse.map Run.lit ++
        (Run.lit c :: scanGo SState.norm rest)

/-- The visible span decomposition of a rendered string. -/
def toRuns (s : Str) : List Run := scanGo SState.norm s

/-- Modelled from the spec: the Length-Correct String wrapper, holding the
visible span decomposition of a rendered string. -/
structure LCString where
  runs : List Run
deriving DecidableEq

/-- Modelled from the spec: construction from a rendered string in a single
linear pass. -/
def wrap (s : Str) : LCString := ⟨toRuns s⟩

/-- The visible (escape-stripped) content of a run list. -/
def visibleContent : List Run → Str
  | [] => []
  | Run.lit c :: rest => c :: visibleContent rest
  | Run.esc _ :: rest => visibleContent rest

/-- Modelled from the spec: `length()` counts literal runs only. -/
def LCString.length (w : LCString) : Nat := (visibleContent w.runs).length

/-- Split a run list at a visible index: the first component holds the given
number of literal runs (with the escape runs interleaved before them), the
second the remainder starting at that visible index. -/
def splitVis : List Run → Nat → List Run × List Run
  | rs, 0 => ([], rs)
  | [], _ + 1 => ([], [])
  | Run.lit c :: rest, n + 1 =>
    let p := splitVis rest n
    (Run.lit c :: p.1, p.2)
  | Run.esc ps :: rest, n + 1 =>
    let p := splitVis rest (n + 1)
    (Run.esc ps :: p.1, p.2)

/-- Apply a list of SGR parameters to the active attribute list: `0` resets,
any other code is appended. -/
def applyParams : List Nat → List Nat → List Nat
  | a, [] => a
  | a, p :: ps => if p = 0 then applyParams [] ps else applyParams (a ++ [p]) ps

/-- The attributes active after a run list has been emitted. -/
def activeAttrs (rs : List Run) : List Nat :=
  rs.foldl (fun a r => match r with | Run.esc ps => applyParams a ps | Run.lit _ => a) []

/-- Modelled from the spec: `slice(start, end)` with visible-index
semantics: the attributes active at `start` replayed as a prefix, the
literal bytes in `[start, end)` with the escape runs encountered within the
range, and a trailing reset when the original had open attributes at `end`.
Out-of-range indices clamp to `[0, length()]`. -/
def LCString.slice (w : LCString) (start stop : Nat) : LCString :=
  let start' := min start w.length
  let stop' := min (max stop start') w.length
  let p := splitVis w.runs start'
  let q := splitVis p.2 (stop' - start')
  let act := activeAttrs p.1
  let actEnd := activeAttrs (p.1 ++ q.1)
  ⟨(if act = [] then [] else [Run.esc act]) ++ q.1 ++
    (if actEnd = [] then [] else [Run.esc [0]])⟩

/-- Modelled from the spec: wrapper equality is defined on the visible
content only. -/
def LCString.visEq (a b : LCString) : Bool :=
  decide (visibleContent a.runs = visibleContent b.runs)

/-- A string is free of tag marker characters. -/
def noMarkers (s : Str) : Bool := decide ('{' ∉ s) && decide ('}' ∉ s)

/-- A string is free of the escape character. -/
def noEsc (s : Str) : Bool := decide ('\x1b' ∉ s)

/-! ## Screenshot helper (embedded from tests/screenshot.py) -/

/-- A PIL-style image: a width, a height and the flat row-major pixel
sequence returned by `getdata()`.  Pixel values are abstract. -/
structure Img (α : Type) where
  width : Nat
  height : Nat
  data : List α
deriving DecidableEq

/-- Worker for `iter_rows`: produce the given number of rows by taking
`width` pixels at a time. -/
def iterRowsN (width : Nat) : Nat → List α → List (List α)
  | 0, _ => []
  | n + 1, d => d.take width :: iterRowsN width n (d.drop width)

/-- `iter_rows` from tests/screenshot.py: group the flat pixel data into
rows of `width` pixels with `zip(*(iter(data),) * width)`, which yields
`len(data) / width` (floor) groups and silently drops any leftover; with
zero columns `zip()` yields nothing. -/
def iter_rows (data : List α) (width : Nat) : List (List α) :=
  if width = 0 then [] else iterRowsN width (data.length / width) data

/-- The accumulator of `get_most_interesting_row`:
`(row, row_set, first_pixel, y_pos)`. -/
abbrev GState (α : Type) := Option (List α) × Finset α × Option α × Option Nat

/-- Loop of `get_most_interesting_row` from tests/screenshot.py: keep the
first row whose distinct-pixel set is strictly largest so far; stop early
once a row attains `width` distinct pixels. -/
def gmirGo [DecidableEq α] (width : Nat) : List (List α) → Nat → GState α → GState α
  | [], _, acc => acc
  | row :: rest, y, acc =>
    let rs := row.toFinset
    let acc' : GState α :=
      if acc.2.1.card < rs.card then (some row, rs, row.head?, some y) else acc
    if rs.card = width then acc' else gmirGo width rest (y + 1) acc'

/-- `get_most_interesting_row` from tests/screenshot.py. -/
def get_most_interesting_row [DecidableEq α] (img : Img α) : GState α :=
  gmirGo img.width (iter_rows img.data img.width) 0 (none, ∅, none, none)

/-- `Image.getpixel` with PIL crop semantics: coordinates outside the image
read as the zero (black) pixel `pad`. -/
def getpixel (img : Img α) (pad : α) (x y : Int) : α :=
  if 0 ≤ x ∧ x < img.width ∧ 0 ≤ y ∧ y < img.height then
    img.data.getD (y.toNat * img.width + x.toNat) pad
  else pad

/-- `Image.crop((left, upper, right, lower))` followed by `getdata()`:
the row-major pixels of the box, with out-of-bounds regions filled by the
zero pixel, as PIL does. -/
def crop (img : Img α) (pad : α) (left upper right lower : Int) : List α :=
  ((List.range (lower - upper).toNat).map (fun dy =>
    (List.range (right - left).toNat).map (fun dx =>
      getpixel img pad (left + dx) (upper + dy)))).flatten

/-- The inner-loop test of `count_subimages` at one `(x_pos, y_pos)`:
first pixel matches, the interesting row matches, and the cropped region
(with PIL zero padding) equals the subimage pixels. -/
def csMatch [DecidableEq α] (S : Img α) (pad : α) (si_pixels : List α) (w h : Nat)
    (si_row : List α) (si_pixel : α) (si_y : Nat) (row : List α) (y x : Nat) : Bool :=
  decide (row.getD x pad = si_pixel) &&
    decide ((row.drop x).take w = si_row) &&
    decide (crop S pad x ((y : Int) - si_y) (x + w) ((y : Int) - si_y + h) = si_pixels)

/-- Row loop of `count_subimages` from tests/screenshot.py: skip rows that
lack some pixel of the interesting row, else count the matching
`x_pos` values. -/
def csGo [DecidableEq α] (S : Img α) (pad : α) (si_pixels : List α) (w h : Nat)
    (si_row : List α) (si_row_set : Finset α) (si_pixel : α) (si_y : Nat) :
    List (List α) → Nat → Nat
  | [], _ => 0
  | row :: rest, y =>
    (if si_row_set \ row.toFinset = ∅ then
      ((List.range (S.width + 1 - w)).filter
        (csMatch S pad si_pixels w h si_row si_pixel si_y row y)).length
    else 0) +
      csGo S pad si_pixels w h si_row si_row_set si_pixel si_y rest (y + 1)

/-- `count_subimages` from tests/screenshot.py.  `pad` is the zero (black)
pixel used by PIL when a crop box reaches outside the image. -/
def count_subimages [DecidableEq α] (pad : α) (screenshot subimg : Img α) : Nat :=
  match get_most_interesting_row subimg with
  | (some si_row, si_row_set, some si_pixel, some si_y) =>
    csGo screenshot pad subimg.data subimg.width subimg.height
      si_row si_row_set si_pixel si_y
      (iter_rows screenshot.data screenshot.width) 0
  | _ => 0

/-- An exact pixel-for-pixel occurrence of image `T` inside image `S` with
its top-left corner at the in-bounds position `(x, y)`. -/
def subimageAt [DecidableEq α] (S T : Img α) (x y : Nat) : Bool :=
  (List.range T.height).all (fun dy =>
    (List.range T.width).all (fun dx =>
      decide ((S.data)[(y + dy) * S.width + (x + dx)]? = (T.data)[dy * T.width + dx]?)))

/-- The number of exact pixel-wise occurrences of `T` in `S`: in-bounds
placements whose every pixel agrees. -/
def numOccurrences [DecidableEq α] (S T : Img α) : Nat :=
  ((List.range (S.height + 1 - T.height)).map (fun y =>
    ((List.range (S.width + 1 - T.width)).filter (fun x => subimageAt S T x y)).length)).sum

/-! ## General helper lemmas -/

theorem map_ok_iff {ε α β : Type} (f : α → β) (x : Except ε α) (y : β) :
    (f <$> x = Except.ok y) ↔ ∃ z, x = Except.ok z ∧ y = f z := by
  cases x with
  | error e => simp [Functor.map, Except.map]
  | ok a =>
    simp only [Functor.map, Except.map, Except.ok.injEq]
    constructor
    · intro h
      exact ⟨a, rfl, h.symm⟩
    · rintro ⟨z, hz, rfl⟩
      cases hz
      rfl

/-! ## Lemmas about iter_rows -/

theorem iterRowsN_length_le {α : Type} (width : Nat) :
    ∀ (n : Nat) (d : List α), ∀ r ∈ iterRowsN width n d, r.length ≤ width
  | 0, d => by simp [iterRowsN]
  | n + 1, d => by
    intro r hr
    simp only [iterRowsN, List.mem_cons] at hr
    rcases hr with h1 | h2
    · subst h1
      simp [List.length_take]
    · exact iterRowsN_length_le width n (d.drop width) r h2

theorem iterRowsN_length_eq {α : Type} (width : Nat) :
    ∀ (n : Nat) (d : List α), n * width ≤ d.length →
      ∀ r ∈ iterRowsN width n d, r.length = width
  | 0, d => by simp [iterRowsN]
  | n + 1, d => by
    intro hle r hr
    have hw : width ≤ d.length := by
      calc width ≤ (n + 1) * width := by
            have := Nat.le_mul_of_pos_left width (show 0 < n + 1 by omega)
            simpa using this
        _ ≤ d.length := hle
    simp only [iterRowsN, List.mem_cons] at hr
    rcases hr with h1 | h2
    · subst h1
      simp [List.length_take]
      omega
    · refine iterRowsN_length_eq width n (d.drop width) ?_ r h2
      simp only [List.length_drop]
      have : (n + 1) * width = n * width + width := by ring
      omega

theorem iter_rows_row_length {α : Type} (d : List α) (width : Nat) :
    ∀ r ∈ iter_rows d width, r.length = width := by
  intro r hr
  unfold iter_rows at hr
  by_cases hw : width = 0
  · simp [hw] at hr
  · rw [if_neg hw] at hr
    refine iterRowsN_length_eq width (d.length / width) d ?_ r hr
    exact Nat.div_mul_le_self d.length width

theorem iter_rows_zero_width {α : Type} (d : List α) : iter_rows d 0 = [] := rfl

theorem iterRowsN_spec {α : Type} (width : Nat) :
    ∀ (n : Nat) (d : List α), d.length = width * n →
      (iterRowsN width n d).length = n ∧
      (∀ r ∈ iterRowsN width n d, r.length = width) ∧
      (iterRowsN width n d).flatten = d
  | 0, d => by
    intro h
    have hd : d = [] := List.eq_nil_of_length_eq_zero (by simpa using h)
    subst hd
    simp [iterRowsN]
  | n + 1, d => by
    intro h
    have hw : width ≤ d.length := by
      rw [h, Nat.mul_succ]
      exact Nat.le_add_left _ _
    have hdrop : (d.drop width).length = width * n := by
      rw [List.length_drop, h, Nat.mul_succ]
      omega
    obtain ⟨ih1, ih2, ih3⟩ := iterRowsN_spec width n (d.drop width) hdrop
    refine ⟨by simp [iterRowsN, ih1], ?_, ?_⟩
    · intro r hr
      simp only [iterRowsN, List.mem_cons] at hr
      rcases hr with h1 | h2
      · subst h1
        simp [List.length_take]
        omega
      · exact ih2 r h2
    · simp only [iterRowsN, List.flatten_cons, ih3]
      exact List.take_append_drop width d

/-! ## Claim theorems: toggles, iter_rows, count_subimages -/

/-- C7: the Mode/Toggle state machine starts at `enabled=auto,
background=none`; from every state, `disable_all_colors` forces `enabled`
off, `set_light_background`/`set_dark_background` set the background, and
the enable/reset call returns the state to `(auto, none)`.  All toggles are
total pure functions, so no toggle call ever fails. -/
theorem toggle_state_machine :
    initialMode = ⟨Enabled.auto, BgMode.none⟩ ∧
    ∀ st : ModeState,
      (disable_all_colors st).enabled = Enabled.forced_off ∧
      (set_light_background st).background = BgMode.light ∧
      (set_dark_background st).background = BgMode.dark ∧
      enable_all_colors st = initialMode :=
  ⟨rfl, fun _ => ⟨rfl, rfl, rfl, rfl⟩⟩

/-- Witness for C7 at a concrete state. -/
theorem toggle_state_machine_witness :
    (disable_all_colors ⟨Enabled.forced_on, BgMode.light⟩).enabled = Enabled.forced_off ∧
    (set_light_background ⟨Enabled.forced_on, BgMode.light⟩).background = BgMode.light ∧
    (set_dark_background ⟨Enabled.forced_on, BgMode.light⟩).background = BgMode.dark ∧
    enable_all_colors ⟨Enabled.forced_on, BgMode.light⟩ = initialMode :=
  toggle_state_machine.2 ⟨Enabled.forced_on, BgMode.light⟩

/-- C10 counterexample: with zero columns, `zip(*(iter(data),) * 0)` is
`zip()`, which yields nothing, so an image of width 0 and height 1 (whose
pixel data, of length `0 = 0 * 1`, trivially has length width × height)
yields 0 rows rather than `height = 1` rows. -/
theorem iter_rows_cex :
    ([] : List Nat).length = 0 * 1 ∧ (iter_rows ([] : List Nat) 0).length ≠ 1 := by
  decide

/-- C10 (amended with `0 < width`): when the pixel data has length
width × height and the width is positive, `iter_rows` yields exactly
`height` rows of exactly `width` pixels each, and concatenating the rows
in order reproduces the pixel sequence. -/
theorem iter_rows_spec {α : Type} (data : List α) (width height : Nat)
    (hw : 0 < width) (hlen : data.length = width * height) :
    (iter_rows data width).length = height ∧
    (∀ r ∈ iter_rows data width, r.length = width) ∧
    (iter_rows data width).flatten = data := by
  have hn : data.length / width = height := by
    rw [hlen, Nat.mul_div_cancel_left _ hw]
  unfold iter_rows
  rw [if_neg (by omega), hn]
  exact iterRowsN_spec width height data hlen

/-- Witness for C10 at a concrete 2×3 image. -/
theorem iter_rows_spec_witness :
    (iter_rows ([1, 2, 3, 4, 5, 6] : List Nat) 2).length = 3 ∧
    (∀ r ∈ iter_rows ([1, 2, 3, 4, 5, 6] : List Nat) 2, r.length = 2) ∧
    (iter_rows ([1, 2, 3, 4, 5, 6] : List Nat) 2).flatten = [1, 2, 3, 4, 5, 6] :=
  iter_rows_spec [1, 2, 3, 4, 5, 6] 2 3 (by decide) (by decide)

/-- C9: `count_subimages` evaluated at the failing input.  The docstring
promises the number of times the subimage appears in the screenshot, but
the crop box may reach outside the screenshot, where PIL fills with zero
(black) pixels: a 1×2 subimage `[1, 0]` ending in a black pixel is counted
once in a 1×1 screenshot `[1]` it cannot fit into, exceeding the true
occurrence count 0. -/
theorem count_subimages_overcount :
    count_subimages 0 (⟨1, 1, [1]⟩ : Img Nat) (⟨1, 2, [1, 0]⟩ : Img Nat) = 1 ∧
    numOccurrences (⟨1, 1, [1]⟩ : Img Nat) (⟨1, 2, [1, 0]⟩ : Img Nat) = 0 := by
  decide

/-! ## Lemmas: marker-free and escape-free strings -/

theorem parseGo_noMarkers : ∀ (s : Str) (pos : Nat), noMarkers s = true →
    parseGo PState.text s pos [] = Except.ok (s.map Token.lit)
  | [], pos => by
    intro h
    rfl
  | c :: rest, pos => by
    intro h
    simp only [noMarkers, Bool.and_eq_true, decide_eq_true_eq, List.mem_cons, not_or] at h
    obtain ⟨⟨hc1, hr1⟩, hc2, hr2⟩ := h
    have hrest : noMarkers rest = true := by
      simp [noMarkers, hr1, hr2]
    unfold parseGo
    rw [if_neg (fun hh => hc1 hh.symm), if_neg (fun hh => hc2 hh.symm)]
    rw [parseGo_noMarkers rest (pos + 1) hrest]
    rfl

theorem translateGo_lits (reg : List ColorCode) (bg : BgMode) (isOn : Bool) :
    ∀ (l : Str) (stack : List Nat),
      translateGo reg bg isOn (l.map Token.lit) stack = Except.ok l
  | [], _ => rfl
  | c :: rest, stack => by
    simp only [List.map_cons, translateGo, translateGo_lits reg bg isOn rest stack]
    rfl

theorem render_noMarkers (s : Str) (st : ModeState) (tty : Bool) (reg : List ColorCode)
    (hm : noMarkers s = true) : render s st tty reg = Except.ok s := by
  have hp : parse s = Except.ok (s.map Token.lit) := parseGo_noMarkers s 0 hm
  simp [render, hp, translateGo_lits]

theorem scanGo_noEsc : ∀ (s : Str), noEsc s = true → scanGo SState.norm s = s.map Run.lit
  | [], _ => rfl
  | c :: rest, h => by
    simp only [noEsc, decide_eq_true_eq, List.mem_cons, not_or] at h
    obtain ⟨hc, hr⟩ := h
    simp only [scanGo]
    rw [if_neg (fun hh => hc hh.symm)]
    rw [scanGo_noEsc rest (by simp [noEsc, hr])]
    rfl

theorem visibleContent_map_lit : ∀ (s : Str), visibleContent (s.map Run.lit) = s
  | [] => rfl
  | c :: rest => by
    simp only [List.map_cons, visibleContent, visibleContent_map_lit rest]

theorem wrap_length_noEsc (s : Str) (h : noEsc s = true) : (wrap s).length = s.length := by
  simp [wrap, LCString.length, toRuns, scanGo_noEsc s h, visibleContent_map_lit]

/-! ## Claim theorems: tag-free rendering (C2) -/

/-- C2 counterexample: the claim quantifies over every string without tag
markers, but a marker-free string may itself contain raw ANSI escape bytes;
`"\x1b[31m"` renders unchanged under any mode (as the claim says), yet the
visible length of its wrapped rendering is 0, not its length 5, because the
Length-Correct wrapper counts literal runs only. -/
theorem plain_text_identity_cex :
    noMarkers ("\x1b[31m".data) = true ∧
    render ("\x1b[31m".data) initialMode true builtinCodes =
      Except.ok ("\x1b[31m".data) ∧
    (wrap ("\x1b[31m".data)).length ≠ ("\x1b[31m".data).length := by
  decide

/-- C2 (amended with "and no escape bytes"): a string with no tag markers
and no escape character renders to itself under every Mode/Toggle state,
terminal capability and registry, and the visible length of its wrapped
rendering equals its length. -/
theorem plain_text_identity (s : Str) (st : ModeState) (tty : Bool)
    (reg : List ColorCode) (hm : noMarkers s = true) (he : noEsc s = true) :
    render s st tty reg = Except.ok s ∧ (wrap s).length = s.length :=
  ⟨render_noMarkers s st tty reg hm, wrap_length_noEsc s he⟩

/-- Witness for C2 at a concrete marker-free, escape-free string. -/
theorem plain_text_identity_witness :
    render ("hi there".data) ⟨Enabled.forced_on, BgMode.light⟩ false builtinCodes =
      Except.ok ("hi there".data) ∧
    (wrap ("hi there".data)).length = ("hi there".data).length :=
  plain_text_identity ("hi there".data) ⟨Enabled.forced_on, BgMode.light⟩ false
    builtinCodes (by decide) (by decide)

/-! ## Claim theorems: forced-off rendering (C3) -/

theorem translateGo_off (reg : List ColorCode) (bg : BgMode) :
    ∀ (ts : List Token) (stack : List Nat), allResolvable reg bg ts = true →
      translateGo reg bg false ts stack = Except.ok (literalText ts)
  | [], _ => by
    intro h
    rfl
  | Token.lit c :: rest, stack => by
    intro h
    simp only [allResolvable] at h
    simp only [translateGo, literalText, translateGo_off reg bg rest stack h]
    rfl
  | Token.tagOpen n :: rest, stack => by
    intro h
    simp only [allResolvable, Bool.and_eq_true] at h
    obtain ⟨h1, h2⟩ := h
    obtain ⟨v, hv⟩ := Option.isSome_iff_exists.mp h1
    simp only [translateGo, hv, literalText,
      translateGo_off reg bg rest (v :: stack) h2]
    rfl
  | Token.tagClose n :: rest, stack => by
    intro h
    simp only [allResolvable, Bool.and_eq_true] at h
    obtain ⟨h1, h2⟩ := h
    obtain ⟨v, hv⟩ := Option.isSome_iff_exists.mp h1
    simp only [translateGo, hv, literalText,
      translateGo_off reg bg rest stack.tail h2]
    rfl

/-- C3 counterexample: the claim quantifies over every well-formed tagged
string, but the literal text may itself contain raw escape bytes; for
`"{red}\x1b[1mhi{/red}"` the forced-off rendering is the 6-character
literal text `"\x1b[1mhi"` (so tag markers are removed and nothing new is
emitted), yet the visible length of the wrapped result is 2, not the pure
literal length 6. -/
theorem forced_off_literal_cex :
    render ("{red}\x1b[1mhi{/red}".data) ⟨Enabled.forced_off, BgMode.none⟩ true
      builtinCodes = Except.ok ("\x1b[1mhi".data) ∧
    (wrap ("\x1b[1mhi".data)).length ≠ ("\x1b[1mhi".data).length := by
  decide

/-- C3 (amended: tag names registered, literal text free of raw escape
bytes): rendering with `enabled=forced_off` yields exactly the literal text
with all tag markers removed and no escape bytes emitted, and the visible
length of the wrapped result equals the pure literal length. -/
theorem forced_off_literal (s : Str) (ts : List Token) (bg : BgMode) (tty : Bool)
    (reg : List ColorCode) (hp : parse s = Except.ok ts)
    (hr : allResolvable reg bg ts = true)
    (he : noEsc (literalText ts) = true) :
    render s ⟨Enabled.forced_off, bg⟩ tty reg = Except.ok (literalText ts) ∧
    (wrap (literalText ts)).length = (literalText ts).length := by
  constructor
  · simp [render, hp, colorsEnabled, translateGo_off reg bg ts [] hr]
  · exact wrap_length_noEsc _ he

/-- Witness for C3: the spec's worked example
`render("{red}hi{/red}", enabled=forced_off) = "hi"`. -/
theorem forced_off_literal_witness :
    render ("{red}hi{/red}".data) ⟨Enabled.forced_off, BgMode.none⟩ true builtinCodes =
      Except.ok ("hi".data) ∧
    (wrap ("hi".data)).length = ("hi".data).length :=
  forced_off_literal ("{red}hi{/red}".data)
    [Token.tagOpen ("red".data), Token.lit 'h', Token.lit 'i',
      Token.tagClose ("red".data)]
    BgMode.none true builtinCodes (by decide) (by decide) (by decide)

/-! ## Claim theorems: unknown tags (C4) -/

theorem translateGo_unknown (reg : List ColorCode) (bg : BgMode) (isOn : Bool) :
    ∀ (ts : List Token) (stack : List Nat),
      (∃ n, (Token.tagOpen n ∈ ts ∨ Token.tagClose n ∈ ts) ∧
        resolveCode reg bg n = none) →
      ∃ m, translateGo reg bg isOn ts stack = Except.error ⟨m⟩ ∧
        resolveCode reg bg m = none
  | [], stack => by
    rintro ⟨n, hmem | hmem, _⟩ <;> simp at hmem
  | Token.lit c :: rest, stack => by
    rintro ⟨n, hmem, hn⟩
    have hrest : ∃ n, (Token.tagOpen n ∈ rest ∨ Token.tagClose n ∈ rest) ∧
        resolveCode reg bg n = none := by
      refine ⟨n, ?_, hn⟩
      rcases hmem with hmem | hmem <;> simp at hmem <;> [left; right] <;> exact hmem
    obtain ⟨m, hm, hmr⟩ := translateGo_unknown reg bg isOn rest stack hrest
    exact ⟨m, by simp [translateGo, hm], hmr⟩
  | Token.tagOpen t :: rest, stack => by
    rintro ⟨n, hmem, hn⟩
    cases ht : resolveCode reg bg t with
    | none => exact ⟨t, by simp [translateGo, ht], ht⟩
    | some v =>
      have hrest : ∃ n, (Token.tagOpen n ∈ rest ∨ Token.tagClose n ∈ rest) ∧
          resolveCode reg bg n = none := by
        refine ⟨n, ?_, hn⟩
        rcases hmem with hmem | hmem <;> simp at hmem
        · rcases hmem with heq | hmem
          · subst heq
            rw [ht] at hn
            exact absurd hn (by simp)
          · exact Or.inl hmem
        · exact Or.inr hmem
      obtain ⟨m, hm, hmr⟩ := translateGo_unknown reg bg isOn rest (v :: stack) hrest
      exact ⟨m, by simp [translateGo, ht, hm], hmr⟩
  | Token.tagClose t :: rest, stack => by
    rintro ⟨n, hmem, hn⟩
    cases ht : resolveCode reg bg t with
    | none => exact ⟨t, by simp [translateGo, ht], ht⟩
    | some v =>
      have hrest : ∃ n, (Token.tagOpen n ∈ rest ∨ Token.tagClose n ∈ rest) ∧
          resolveCode reg bg n = none := by
        refine ⟨n, ?_, hn⟩
        rcases hmem with hmem | hmem <;> simp at hmem
        · exact Or.inl hmem
        · rcases hmem with heq | hmem
          · subst heq
            rw [ht] at hn
            exact absurd hn (by simp)
          · exact Or.inr hmem
      obtain ⟨m, hm, hmr⟩ := translateGo_unknown reg bg isOn rest stack.tail hrest
      exact ⟨m, by simp [translateGo, ht, hm], hmr⟩

/-- C4 counterexample: the claim quantifies over every input containing a
syntactically valid unknown tag and cites the input `"{notreal}"`, but
that very input is an unterminated open tag, so parsing fails first and
the render call raises `MalformedTagError` at position 0, not
`UnknownTagError`. -/
theorem unknown_tag_errors_cex :
    render ("{notreal}".data) initialMode true builtinCodes =
      Except.error (RenderError.malformedTag ⟨0⟩) := by
  decide

/-- C4 (amended to well-formed inputs): for every input string that parses
successfully and contains an open or close tag whose name has no registry
entry (after background remapping), the render call fails with
`UnknownTagError` naming an unresolvable tag, and returns no output at
all (the error is the entire result). -/
theorem unknown_tag_errors (s : Str) (ts : List Token) (st : ModeState)
    (tty : Bool) (reg : List ColorCode) (hp : parse s = Except.ok ts)
    (hu : ∃ n, (Token.tagOpen n ∈ ts ∨ Token.tagClose n ∈ ts) ∧
      resolveCode reg st.background n = none) :
    ∃ m, render s st tty reg =
        Except.error (RenderError.unknownTag ⟨m⟩) ∧
      resolveCode reg st.background m = none := by
  obtain ⟨m, hm, hmr⟩ :=
    translateGo_unknown reg st.background (colorsEnabled st tty) ts [] hu
  exact ⟨m, by simp [render, hp, hm], hmr⟩

/-- Witness for C4: a well-formed string with the unknown tag `notreal`. -/
theorem unknown_tag_errors_witness :
    ∃ m, render ("{notreal}x{/notreal}".data) initialMode true builtinCodes =
        Except.error (RenderError.unknownTag ⟨m⟩) ∧
      resolveCode builtinCodes initialMode.background m = none :=
  unknown_tag_errors ("{notreal}x{/notreal}".data)
    [Token.tagOpen ("notreal".data), Token.lit 'x', Token.tagClose ("notreal".data)]
    initialMode true builtinCodes (by decide)
    ⟨("notreal".data), Or.inl (by simp), by decide⟩

/-! ## Claim theorems: malformed nesting (C5) -/

theorem parseGo_nestOk : ∀ (s : Str) (st : PState) (pos : Nat)
    (stack : List (Str × Nat)) (ts : List Token),
    parseGo st s pos stack = Except.ok ts →
    nestOk ts (stack.map Prod.fst) = true
  | [], st, pos, stack, ts => by
    intro h
    cases st with
    | text =>
      cases stack with
      | nil =>
        unfold parseGo at h
        cases h
        rfl
      | cons hd tl =>
        unfold parseGo at h
        exact absurd h (by simp)
    | tagName isClose sp acc =>
      unfold parseGo at h
      exact absurd h (by simp)
  | c :: rest, st, pos, stack, ts => by
    intro h
    cases st with
    | text =>
      unfold parseGo at h
      by_cases hc : c = '{'
      · rw [if_pos hc] at h
        split at h
        next => exact absurd h (by simp)
        next d rest' =>
          by_cases hd : d = '{'
          · rw [if_pos hd, map_ok_iff] at h
            obtain ⟨ts', hts', rfl⟩ := h
            simpa [nestOk] using parseGo_nestOk rest' PState.text (pos + 2) stack ts' hts'
          · rw [if_neg hd] at h
            by_cases hd2 : d = '/'
            · rw [if_pos hd2] at h
              exact parseGo_nestOk rest' _ (pos + 2) stack ts h
            · rw [if_neg hd2] at h
              by_cases hd3 : d = '}'
              · rw [if_pos hd3] at h
                exact absurd h (by simp)
              · rw [if_neg hd3] at h
                exact parseGo_nestOk rest' _ (pos + 2) stack ts h
      · rw [if_neg hc] at h
        by_cases hc2 : c = '}'
        · rw [if_pos hc2] at h
          split at h
          next => exact absurd h (by simp)
          next d rest' =>
            by_cases hd : d = '}'
            · rw [if_pos hd, map_ok_iff] at h
              obtain ⟨ts', hts', rfl⟩ := h
              simpa [nestOk] using parseGo_nestOk rest' PState.text (pos + 2) stack ts' hts'
            · rw [if_neg hd] at h
              exact absurd h (by simp)
        · rw [if_neg hc2, map_ok_iff] at h
          obtain ⟨ts', hts', rfl⟩ := h
          simpa [nestOk] using parseGo_nestOk rest PState.text (pos + 1) stack ts' hts'
    | tagName isClose sp acc =>
      unfold parseGo at h
      by_cases hc : c = '}'
      · rw [if_pos hc] at h
        by_cases hacc : acc = []
        · rw [if_pos hacc] at h
          exact absurd h (by simp)
        · rw [if_neg hacc] at h
          by_cases hic : isClose = true
          · rw [if_pos hic] at h
            split at h
            next => exact absurd h (by simp)
            next top p stack' =>
              by_cases htop : top = acc.reverse
              · rw [if_pos htop, map_ok_iff] at h
                obtain ⟨ts', hts', rfl⟩ := h
                have := parseGo_nestOk rest PState.text (pos + 1) stack' ts' hts'
                simp [nestOk, htop, this]
              · rw [if_neg htop] at h
                exact absurd h (by simp)
          · rw [if_neg hic, map_ok_iff] at h
            obtain ⟨ts', hts', rfl⟩ := h
            have := parseGo_nestOk rest PState.text (pos + 1) ((acc.reverse, sp) :: stack) ts' hts'
            simpa [nestOk] using this
      · rw [if_neg hc] at h
        by_cases hc2 : c = '{'
        · rw [if_pos hc2] at h
          exact absurd h (by simp)
        · rw [if_neg hc2] at h
          exact parseGo_nestOk rest _ (pos + 1) stack ts h

/-- C5: every successful parse yields a balanced token stream — so an
input with malformed nesting is never silently repaired into a token
stream — and the two malformed shapes the claim names fail with
`MalformedTagError` at the offending position: the unterminated open of
`"{red}text"` (position 0) and the unmatched close of `"{/red}hi"`
(position 0). -/
theorem malformed_nesting_errors :
    (∀ (s : Str) (ts : List Token), parse s = Except.ok ts → balanced ts = true) ∧
    parse ("{red}text".data) = Except.error ⟨0⟩ ∧
    parse ("{/red}hi".data) = Except.error ⟨0⟩ := by
  refine ⟨?_, by decide, by decide⟩
  intro s ts h
  simpa [balanced] using parseGo_nestOk s PState.text 0 [] ts h

/-- Witness for C5 at a concrete successful parse. -/
theorem malformed_nesting_errors_witness :
    balanced [Token.lit 'h', Token.lit 'i'] = true :=
  malformed_nesting_errors.1 ("hi".data) [Token.lit 'h', Token.lit 'i'] (by decide)

/-! ## Claim theorems: slice round-trip (C6) -/

theorem visibleContent_append : ∀ (a b : List Run),
    visibleContent (a ++ b) = visibleContent a ++ visibleContent b
  | [], b => rfl
  | Run.lit c :: rest, b => by
    simp [visibleContent, visibleContent_append rest b]
  | Run.esc ps :: rest, b => by
    simp [visibleContent, visibleContent_append rest b]

theorem splitVis_fst_visible : ∀ (rs : List Run),
    visibleContent (splitVis rs (visibleContent rs).length).1 = visibleContent rs
  | [] => rfl
  | Run.lit c :: rest => by
    simp only [visibleContent, List.length_cons, splitVis]
    simpa [visibleContent] using splitVis_fst_visible rest
  | Run.esc ps :: rest => by
    have ih := splitVis_fst_visible rest
    simp only [visibleContent]
    cases hL : (visibleContent rest).length with
    | zero =>
      have h0 : visibleContent rest = [] := List.eq_nil_of_length_eq_zero hL
      simp [splitVis, visibleContent, h0]
    | succ k =>
      simp only [splitVis, visibleContent]
      rw [← hL]
      exact ih

theorem slice_visible_roundtrip (w : LCString) :
    visibleContent ((w.slice 0 w.length).runs) = visibleContent w.runs := by
  obtain ⟨rs⟩ := w
  simp only [LCString.slice, LCString.length, Nat.zero_min, Nat.max_zero,
    Nat.min_self, Nat.sub_zero, splitVis, activeAttrs, List.foldl_nil]
  simp only [if_true, List.nil_append, visibleContent_append, splitVis_fst_visible]
  split <;> simp [visibleContent]

/-- C6: slicing the wrapped value of any rendered string over its full
visible range round-trips: `slice(wrap(x), 0, length(x))` equals `wrap(x)`
under the wrapper's equality, which the spec defines on the visible
content. -/
theorem slice_roundtrip (x : Str) :
    LCString.visEq ((wrap x).slice 0 (wrap x).length) (wrap x) = true := by
  simp [LCString.visEq, slice_visible_roundtrip]

/-- Witness for C6 at a concrete rendered string. -/
theorem slice_roundtrip_witness :
    LCString.visEq
      ((wrap ("\x1b[31mhi\x1b[0m".data)).slice 0 (wrap ("\x1b[31mhi\x1b[0m".data)).length)
      (wrap ("\x1b[31mhi\x1b[0m".data)) = true :=
  slice_roundtrip ("\x1b[31mhi\x1b[0m".data)

/-! ## Claim theorems: nested tags (C1) -/

theorem digitChar_isDigit (n : Nat) (h : n < 10) : (digitChar n).isDigit = true := by
  interval_cases n <;> decide

theorem natCharsGo_digits : ∀ (f n : Nat) (acc : Str),
    (∀ c ∈ acc, c.isDigit = true) →
    ∀ c ∈ natCharsGo f n acc, c.isDigit = true
  | 0, n, acc => fun hacc => hacc
  | f + 1, n, acc => by
    intro hacc c hc
    simp only [natCharsGo] at hc
    by_cases h : n < 10
    · rw [if_pos h] at hc
      rcases List.mem_cons.mp hc with h1 | h2
      · subst h1
        exact digitChar_isDigit n h
      · exact hacc c h2
    · rw [if_neg h] at hc
      refine natCharsGo_digits f (n / 10) _ ?_ c hc
      intro d hd
      rcases List.mem_cons.mp hd with h1 | h2
      · subst h1
        exact digitChar_isDigit _ (Nat.mod_lt n (by omega))
      · exact hacc d h2

theorem natChars_digits (n : Nat) : ∀ c ∈ natChars n, c.isDigit = true :=
  natCharsGo_digits (n + 1) n [] (by simp)

theorem paramBody_chars : ∀ (ps : List Nat), ∀ c ∈ paramBody ps,
    c.isDigit = true ∨ c = ';'
  | [] => by simp [paramBody]
  | [p] => by
    intro c hc
    exact Or.inl (natChars_digits p c hc)
  | p :: q :: ps => by
    intro c hc
    simp only [paramBody, List.mem_append, List.mem_cons] at hc
    rcases hc with h1 | h2 | h3
    · exact Or.inl (natChars_digits p c h1)
    · exact Or.inr h2
    · exact paramBody_chars (q :: ps) c h3

theorem scanGo_norm_esc (s : Str) :
    scanGo SState.norm ('\x1b' :: s) = scanGo SState.sawEsc s := by
  simp [scanGo]

theorem scanGo_sawEsc_bracket (s : Str) :
    scanGo SState.sawEsc ('[' :: s) = scanGo (SState.inEsc []) s := by
  simp [scanGo]

theorem scanGo_inEsc_body : ∀ (ds : Str) (raw : Str) (rest : Str),
    (∀ c ∈ ds, c.isDigit = true ∨ c = ';') →
    visibleContent (scanGo (SState.inEsc raw) (ds ++ 'm' :: rest)) =
      visibleContent (scanGo SState.norm rest)
  | [], raw, rest => by
    intro h
    simp only [List.nil_append, scanGo]
    rw [if_pos trivial]
    rfl
  | d :: ds, raw, rest => by
    intro h
    have hd := h d (List.mem_cons_self d ds)
    have hds : ∀ c ∈ ds, c.isDigit = true ∨ c = ';' :=
      fun c hc => h c (List.mem_cons_of_mem d hc)
    have hdm : ¬(d = 'm') := by
      rcases hd with h1 | h1
      · intro he
        subst he
        exact absurd h1 (by decide)
      · intro he
        rw [he] at h1
        exact absurd h1 (by decide)
    simp only [List.cons_append, scanGo]
    rw [if_neg hdm, if_pos hd]
    exact scanGo_inEsc_body ds (d :: raw) rest hds

theorem visible_scan_csi (ps : List Nat) (rest : Str) :
    visibleContent (scanGo SState.norm (csiChars ps ++ rest)) =
      visibleContent (scanGo SState.norm rest) := by
  show visibleContent
      (scanGo SState.norm (('\x1b' :: '[' :: (paramBody ps ++ ['m'])) ++ rest)) = _
  rw [List.cons_append, List.cons_append, scanGo_norm_esc, scanGo_sawEsc_bracket,
    List.append_assoc, List.singleton_append]
  exact scanGo_inEsc_body (paramBody ps) [] rest (paramBody_chars ps)

theorem visible_scan_csi_nil (ps : List Nat) :
    visibleContent (scanGo SState.norm (csiChars ps)) = [] := by
  have h := visible_scan_csi ps []
  rw [List.append_nil] at h
  rw [h]
  rfl

theorem visible_scan_plain : ∀ (t : Str) (rest : Str), noEsc t = true →
    visibleContent (scanGo SState.norm (t ++ rest)) =
      t ++ visibleContent (scanGo SState.norm rest)
  | [], rest => by
    intro h
    rfl
  | c :: t, rest => by
    intro h
    simp only [noEsc, decide_eq_true_eq, List.mem_cons, not_or] at h
    obtain ⟨hc, ht⟩ := h
    simp only [List.cons_append, scanGo]
    rw [if_neg (fun hh => hc hh.symm)]
    simp only [visibleContent, List.cons_append, List.append_eq]
    rw [visible_scan_plain t rest (by simp [noEsc, ht])]

/-- C1: rendering the nested-tag shape `"{A}{B}text{/B}text2{/A}"` with
color enabled (any mode/capability with colors on, any attribute values
`a`, `b` for A and B) emits, immediately after the close of B, the
pop/reset followed by an escape that re-applies exactly attribute A — the
combined escape of the remaining attribute stack, not a bare reset — and
stripping the colors from that rendering leaves exactly `"texttext2"`. -/
theorem nested_tags_restore_outer (a b : Nat) (st : ModeState) (tty : Bool)
    (hon : colorsEnabled st tty = true) :
    render ("{A}{B}text{/B}text2{/A}".data) st tty
      [⟨("A".data), a, ColorKind.foreground⟩, ⟨("B".data), b, ColorKind.foreground⟩] =
      Except.ok (csiChars [a] ++ (csiChars [b] ++ (("text".data) ++ (csiChars [0] ++
        (csiChars [a] ++ (("text2".data) ++ csiChars [0])))))) ∧
    visibleContent (toRuns (csiChars [a] ++ (csiChars [b] ++ (("text".data) ++
        (csiChars [0] ++ (csiChars [a] ++ (("text2".data) ++ csiChars [0]))))))) =
      ("texttext2".data) := by
  constructor
  · have hp : parse ("{A}{B}text{/B}text2{/A}".data) = Except.ok
        [Token.tagOpen ("A".data), Token.tagOpen ("B".data),
         Token.lit 't', Token.lit 'e', Token.lit 'x', Token.lit 't',
         Token.tagClose ("B".data),
         Token.lit 't', Token.lit 'e', Token.lit 'x', Token.lit 't', Token.lit '2',
         Token.tagClose ("A".data)] := by decide
    have hA : resolveCode
        [⟨("A".data), a, ColorKind.foreground⟩, ⟨("B".data), b, ColorKind.foreground⟩]
        st.background ("A".data) = some a := rfl
    have hB : resolveCode
        [⟨("A".data), a, ColorKind.foreground⟩, ⟨("B".data), b, ColorKind.foreground⟩]
        st.background ("B".data) = some b := rfl
    unfold render
    rw [hp, hon]
    simp only [translateGo, hA, hB]
    have hmap : ∀ (f : Str → Str) (x : Str),
        f <$> (Except.ok x : Except UnknownTagError Str) = Except.ok (f x) :=
      fun f x => rfl
    simp only [if_true, List.tail_cons, hmap]
    simp [List.append_assoc]
  · show visibleContent (scanGo SState.norm _) = _
    rw [visible_scan_csi, visible_scan_csi,
      visible_scan_plain ("text".data) _ (by decide),
      visible_scan_csi, visible_scan_csi,
      visible_scan_plain ("text2".data) _ (by decide),
      visible_scan_csi_nil]
    rfl

/-- Witness for C1 at concrete attribute codes 31 and 1 and a concrete
enabled mode. -/
theorem nested_tags_restore_outer_witness :
    render ("{A}{B}text{/B}text2{/A}".data) ⟨Enabled.forced_on, BgMode.none⟩ false
      [⟨("A".data), 31, ColorKind.foreground⟩, ⟨("B".data), 1, ColorKind.foreground⟩] =
      Except.ok (csiChars [31] ++ (csiChars [1] ++ (("text".data) ++ (csiChars [0] ++
        (csiChars [31] ++ (("text2".data) ++ csiChars [0])))))) ∧
    visibleContent (toRuns (csiChars [31] ++ (csiChars [1] ++ (("text".data) ++
        (csiChars [0] ++ (csiChars [31] ++ (("text2".data) ++ csiChars [0]))))))) =
      ("texttext2".data) :=
  nested_tags_restore_outer 31 1 ⟨Enabled.forced_on, BgMode.none⟩ false rfl

/-! ## Claim theorems: most interesting row (C8) -/

/-- The invariant of the `get_most_interesting_row` loop: after scanning
`rows`, the accumulator is still the initial one and every scanned row had
no distinct pixel (only possible for empty rows), or it holds the first
row attaining the maximal distinct-pixel count among `rows`, together with
its pixel set, first pixel and index. -/
def GoodAcc {α : Type} [DecidableEq α] (rows : List (List α)) (acc : GState α) : Prop :=
  (acc = (none, ∅, none, none) ∧ ∀ r ∈ rows, r.toFinset.card = 0) ∨
  (∃ row y, acc = (some row, row.toFinset, row.head?, some y) ∧
    rows[y]? = some row ∧
    (∀ r ∈ rows, r.toFinset.card ≤ row.toFinset.card) ∧
    (∀ j r', j < y → rows[j]? = some r' → r'.toFinset.card < row.toFinset.card))

theorem GoodAcc_card {α : Type} [DecidableEq α] (rows : List (List α)) (acc : GState α)
    (h : GoodAcc rows acc) : ∀ r ∈ rows, r.toFinset.card ≤ acc.2.1.card := by
  rcases h with ⟨hacc, hall⟩ | ⟨row0, y0, hacc, _, hmax, _⟩
  · intro r hr
    rw [hacc]
    simp [hall r hr]
  · intro r hr
    rw [hacc]
    exact hmax r hr

theorem GoodAcc_step {α : Type} [DecidableEq α] (done : List (List α)) (acc : GState α)
    (row : List α) (h : GoodAcc done acc) :
    GoodAcc (done ++ [row])
      (if acc.2.1.card < row.toFinset.card
       then (some row, row.toFinset, row.head?, some done.length) else acc) := by
  by_cases hlt : acc.2.1.card < row.toFinset.card
  · rw [if_pos hlt]
    right
    refine ⟨row, done.length, rfl, ?_, ?_, ?_⟩
    · exact List.getElem?_concat_length done row
    · intro r hr
      rcases List.mem_append.mp hr with hr | hr
      · have := GoodAcc_card done acc h r hr
        omega
      · simp only [List.mem_singleton] at hr
        subst hr
        exact le_refl _
    · intro j r' hj hget'
      have hgetd : done[j]? = some r' := by
        rwa [List.getElem?_append_left hj] at hget'
      have hmem : r' ∈ done := List.getElem?_mem hgetd
      have := GoodAcc_card done acc h r' hmem
      omega
  · rw [if_neg hlt]
    push_neg at hlt
    rcases h with ⟨hacc, hall⟩ | ⟨row0, y0, hacc, hget, hmax, hfirst⟩
    · left
      refine ⟨hacc, ?_⟩
      intro r hr
      rcases List.mem_append.mp hr with hr | hr
      · exact hall r hr
      · simp only [List.mem_singleton] at hr
        subst hr
        rw [hacc] at hlt
        simpa using hlt
    · right
      have hy0 : y0 < done.length := by
        rcases List.getElem?_eq_some.mp hget with ⟨hlt', _⟩
        exact hlt'
      refine ⟨row0, y0, hacc, ?_, ?_, ?_⟩
      · rw [List.getElem?_append_left hy0]
        exact hget
      · intro r hr
        rcases List.mem_append.mp hr with hr | hr
        · exact hmax r hr
        · simp only [List.mem_singleton] at hr
          subst hr
          rw [hacc] at hlt
          simpa using hlt
      · intro j r' hj hget'
        have hgetd : done[j]? = some r' := by
          rwa [List.getElem?_append_left (lt_trans hj hy0)] at hget'
        exact hfirst j r' hj hgetd

theorem GoodAcc_extend {α : Type} [DecidableEq α] (rows ext : List (List α))
    (acc : GState α) (h : GoodAcc rows acc)
    (hext : ∀ r ∈ ext, r.toFinset.card ≤ acc.2.1.card) :
    GoodAcc (rows ++ ext) acc := by
  rcases h with ⟨hacc, hall⟩ | ⟨row0, y0, hacc, hget, hmax, hfirst⟩
  · left
    refine ⟨hacc, ?_⟩
    intro r hr
    rcases List.mem_append.mp hr with hr | hr
    · exact hall r hr
    · have := hext r hr
      rw [hacc] at this
      simpa using this
  · right
    have hy0 : y0 < rows.length := by
      rcases List.getElem?_eq_some.mp hget with ⟨hlt', _⟩
      exact hlt'
    refine ⟨row0, y0, hacc, ?_, ?_, ?_⟩
    · rw [List.getElem?_append_left hy0]
      exact hget
    · intro r hr
      rcases List.mem_append.mp hr with hr | hr
      · exact hmax r hr
      · have := hext r hr
        rw [hacc] at this
        simpa using this
    · intro j r' hj hget'
      have hgetd : rows[j]? = some r' := by
        rwa [List.getElem?_append_left (lt_trans hj hy0)] at hget'
      exact hfirst j r' hj hgetd

theorem gmirGo_good {α : Type} [DecidableEq α] (width : Nat) :
    ∀ (rest done : List (List α)) (acc : GState α),
      (∀ r ∈ rest, r.length ≤ width) →
      GoodAcc done acc →
      GoodAcc (done ++ rest) (gmirGo width rest done.length acc)
  | [], done, acc => by
    intro _ h
    simpa [gmirGo] using h
  | row :: rest, done, acc => by
    intro hlen h
    have hstep := GoodAcc_step done acc row h
    simp only [gmirGo]
    by_cases hbreak : row.toFinset.card = width
    · rw [if_pos hbreak]
      have hw : width ≤
          (if acc.2.1.card < row.toFinset.card
           then ((some row, row.toFinset, row.head?, some done.length) : GState α)
           else acc).2.1.card := by
        by_cases hlt : acc.2.1.card < row.toFinset.card
        · rw [if_pos hlt]
          simp [hbreak]
        · rw [if_neg hlt]
          omega
      have hext : ∀ r ∈ rest, r.toFinset.card ≤
          (if acc.2.1.card < row.toFinset.card
           then ((some row, row.toFinset, row.head?, some done.length) : GState α)
           else acc).2.1.card := by
        intro r hr
        have h1 : r.toFinset.card ≤ r.length := List.toFinset_card_le r
        have h2 : r.length ≤ width := hlen r (List.mem_cons_of_mem row hr)
        omega
      have := GoodAcc_extend (done ++ [row]) rest _ hstep hext
      rwa [List.append_assoc, List.singleton_append] at this
    · rw [if_neg hbreak]
      have hlen' : ∀ r ∈ rest, r.length ≤ width :=
        fun r hr => hlen r (List.mem_cons_of_mem row hr)
      have hrec := gmirGo_good width rest (done ++ [row]) _ hlen' hstep
      rw [List.length_append, List.length_singleton] at hrec
      rwa [List.append_assoc, List.singleton_append] at hrec

/-- C8: `get_most_interesting_row` on an image with at least one row
returns `(row, row_set, first_pixel, y_pos)` where `row` is the image's
row at index `y_pos`, `row_set` is its set of distinct pixels,
`first_pixel` is its first pixel, no row of the image has strictly more
distinct pixels, and every earlier row has strictly fewer (the first row
attaining the maximum is returned); on an image with no rows it returns
`(None, empty set, None, None)`. -/
theorem most_interesting_row_spec {α : Type} [DecidableEq α] (img : Img α) :
    (iter_rows img.data img.width = [] →
      get_most_interesting_row img = (none, ∅, none, none)) ∧
    (iter_rows img.data img.width ≠ [] →
      ∃ row y, get_most_interesting_row img =
          (some row, row.toFinset, row.head?, some y) ∧
        (iter_rows img.data img.width)[y]? = some row ∧
        (∀ r ∈ iter_rows img.data img.width,
          r.toFinset.card ≤ row.toFinset.card) ∧
        (∀ j r', j < y → (iter_rows img.data img.width)[j]? = some r' →
          r'.toFinset.card < row.toFinset.card)) := by
  constructor
  · intro h
    unfold get_most_interesting_row
    rw [h]
    rfl
  · intro hne
    have hgood := gmirGo_good img.width (iter_rows img.data img.width) []
      ((none, ∅, none, none) : GState α)
      (fun r hr => le_of_eq (iter_rows_row_length img.data img.width r hr))
      (Or.inl ⟨rfl, by simp⟩)
    simp only [List.nil_append, List.length_nil] at hgood
    rcases hgood with ⟨_, hall⟩ | ⟨row, y, hacc, hget, hmax, hfirst⟩
    · exfalso
      obtain ⟨r, hr⟩ := List.exists_mem_of_ne_nil _ hne
      have hlen := iter_rows_row_length img.data img.width r hr
      have hwpos : img.width ≠ 0 := by
        intro h0
        rw [h0] at hne
        exact hne (iter_rows_zero_width img.data)
      have hrne : r ≠ [] := by
        intro h0
        rw [h0] at hlen
        exact hwpos hlen.symm
      have hcard := hall r hr
      rw [Finset.card_eq_zero, List.toFinset_eq_empty_iff] at hcard
      exact hrne hcard
    · exact ⟨row, y, hacc, hget, hmax, hfirst⟩

/-- Witness for C8 at a concrete 2×2 image whose second row has the most
distinct pixels. -/
theorem most_interesting_row_spec_witness :
    ∃ row y, get_most_interesting_row (⟨2, 2, [7, 7, 1, 2]⟩ : Img Nat) =
        (some row, row.toFinset, row.head?, some y) ∧
      (iter_rows ([7, 7, 1, 2] : List Nat) 2)[y]? = some row ∧
      (∀ r ∈ iter_rows ([7, 7, 1, 2] : List Nat) 2,
        r.toFinset.card ≤ row.toFinset.card) ∧
      (∀ j r', j < y → (iter_rows ([7, 7, 1, 2] : List Nat) 2)[j]? = some r' →
        r'.toFinset.card < row.toFinset.card) :=
  (most_interesting_row_spec (⟨2, 2, [7, 7, 1, 2]⟩ : Img Nat)).2 (by decide)
